import Mathlib

/-!
Verification of the tool-orchestration core of the `opencode_nano` agent.

The Go sources are shallowly embedded: Go maps become association lists,
stateful methods become explicit state-passing functions, fallible calls
return `Except`/`Option`, and the concrete LLM stream is a list of frames.
Each definition mirrors one Go function; theorems settle the frozen claims.
-/

namespace OpencodeNano

/-- A dynamically typed parameter value (Go `any` as produced by JSON
decoding or stored in metadata maps): string, int, bool or nil. -/
inductive Value where
  | vStr (s : String)
  | vInt (n : Int)
  | vBool (b : Bool)
  | vNull
deriving DecidableEq, Repr

/-- Go `fmt.Sprintf("%v", value)` restricted to the embedded value kinds. -/
def goFormat : Value → String
  | .vStr s => s
  | .vInt n => toString n
  | .vBool b => if b then "true" else "false"
  | .vNull => "<nil>"

/-- Go map assignment `m[k] = v`: replace an existing binding or add a new
one.  Association lists model Go maps; claim-relevant lookups are
order-independent. -/
def mapInsert {α : Type} (m : List (String × α)) (k : String) (v : α) :
    List (String × α) :=
  match m with
  | [] => [(k, v)]
  | (k₁, v₁) :: rest =>
      if k₁ = k then (k, v) :: rest else (k₁, v₁) :: mapInsert rest k v

/-- Go map read `m[k]` returning the zero value `[]` for a missing key,
then `append(..., v)`; models `r.categories[cat] = append(r.categories[cat], tool)`. -/
def mapAppend {α : Type} (m : List (String × List α)) (k : String) (v : α) :
    List (String × List α) :=
  mapInsert m k (((m.lookup k).getD []) ++ [v])

theorem lookup_mapInsert_self {α : Type} (m : List (String × α)) (k : String) (v : α) :
    (mapInsert m k v).lookup k = some v := by
  induction m with
  | nil => simp [mapInsert, List.lookup]
  | cons hd tl ih =>
      obtain ⟨k₁, v₁⟩ := hd
      by_cases h : k₁ = k
      · simp [mapInsert, h, List.lookup]
      · have hbeq : (k == k₁) = false := by simp [Ne.symm h]
        simp [mapInsert, h, List.lookup, hbeq, ih]

theorem lookup_mapInsert_ne {α : Type} (m : List (String × α)) (k k₂ : String) (v : α)
    (h : k₂ ≠ k) : (mapInsert m k v).lookup k₂ = m.lookup k₂ := by
  have hbeq : (k₂ == k) = false := by simp [h]
  induction m with
  | nil => simp [mapInsert, List.lookup, hbeq]
  | cons hd tl ih =>
      obtain ⟨k₁, v₁⟩ := hd
      by_cases h₁ : k₁ = k
      · subst h₁
        simp [mapInsert, List.lookup, hbeq]
      · by_cases h₂ : k₂ = k₁
        · subst h₂
          simp [mapInsert, h₁, List.lookup]
        · have hbeq₂ : (k₂ == k₁) = false := by simp [h₂]
          simp [mapInsert, h₁, List.lookup, hbeq₂, ih]

/-! ## Tool registry (src/tools/core/registry.go) -/

/-- `core.ToolInfo`: the identity-relevant data of a registered tool. -/
structure ToolInfo where
  name : String
  category : String
  description : String
  requiresPerm : Bool
  tags : List String
deriving DecidableEq, Repr

/-- `core.ToolRegistry`: the four indices guarded by the RW-mutex.  The
mutex serialises calls, so each call is modelled as a pure state
transformer. -/
structure ToolRegistry where
  tools : List (String × ToolInfo)
  aliases : List (String × String)
  categories : List (String × List ToolInfo)
  tagIndex : List (String × List ToolInfo)
deriving DecidableEq, Repr

/-- `core.NewRegistry()`. -/
def newRegistry : ToolRegistry := ⟨[], [], [], []⟩

/-- The alias loop inside `Register`: checks and inserts each alias in
order, stopping at the first collision; insertions made before the
collision persist (the Go method mutates the receiver in place). -/
def registerAliases (als : List (String × String)) (toolName : String) :
    List String → Option String × List (String × String)
  | [] => (none, als)
  | a :: rest =>
      if (als.lookup a).isSome then
        (some ("alias " ++ a ++ " already in use"), als)
      else
        registerAliases (mapInsert als a toolName) toolName rest

/-- `ToolRegistry.Register(tool, aliases...)`.  Returns the error (if any)
together with the registry state after the call; the name-collision check
precedes every write, the alias checks run after the tool was stored in
the name map, and the category/tag indices are only reached on full
success — exactly the order of the Go method, which mutates the receiver
in place and performs no rollback on an alias collision. -/
def register (r : ToolRegistry) (tool : ToolInfo) (aliases : List String) :
    Option String × ToolRegistry :=
  if (r.tools.lookup tool.name).isSome then
    (some ("tool " ++ tool.name ++ " already registered"), r)
  else
    match registerAliases r.aliases tool.name aliases with
    | (some e, als) =>
        (some e, { r with tools := mapInsert r.tools tool.name tool, aliases := als })
    | (none, als) =>
        (none,
          { tools := mapInsert r.tools tool.name tool
            aliases := als
            categories :=
              if tool.category ≠ "" then mapAppend r.categories tool.category tool
              else r.categories
            tagIndex := tool.tags.foldl (fun m tg => mapAppend m tg tool) r.tagIndex })

/-- Membership of a tool in an index bucket (category or tag). -/
def inBucket (m : List (String × List ToolInfo)) (k : String) (t : ToolInfo) : Prop :=
  t ∈ ((m.lookup k).getD [])

theorem inBucket_mapAppend_self (m : List (String × List ToolInfo)) (k : String)
    (t : ToolInfo) : inBucket (mapAppend m k t) k t := by
  unfold inBucket mapAppend
  rw [lookup_mapInsert_self]
  simp

theorem inBucket_mapAppend_mono (m : List (String × List ToolInfo)) (k k₂ : String)
    (t v : ToolInfo) (h : inBucket m k t) : inBucket (mapAppend m k₂ v) k t := by
  by_cases hk : k = k₂
  · subst hk
    unfold inBucket mapAppend
    rw [lookup_mapInsert_self]
    simp only [Option.getD_some, List.mem_append]
    exact Or.inl h
  · unfold inBucket mapAppend
    rw [lookup_mapInsert_ne _ _ _ _ hk]
    exact h

theorem inBucket_foldl_mono (tags : List String) (m : List (String × List ToolInfo))
    (k : String) (t v : ToolInfo) (h : inBucket m k t) :
    inBucket (tags.foldl (fun acc tg => mapAppend acc tg v) m) k t := by
  induction tags generalizing m with
  | nil => exact h
  | cons a rest ih => exact ih _ (inBucket_mapAppend_mono _ _ _ _ _ h)

theorem inBucket_foldl_self (tags : List String) :
    ∀ (m : List (String × List ToolInfo)) (t : ToolInfo) (tg : String),
      tg ∈ tags → inBucket (tags.foldl (fun acc x => mapAppend acc x t) m) tg t := by
  induction tags with
  | nil =>
      intro m t tg htg
      cases htg
  | cons a rest ih =>
      intro m t tg htg
      rw [List.foldl_cons]
      rcases List.mem_cons.mp htg with h | h
      · subst h
        exact inBucket_foldl_mono rest _ tg t t (inBucket_mapAppend_self m tg t)
      · exact ih _ t tg h

theorem registerAliases_preserves (pending : List String)
    (als : List (String × String)) (n b : String) (h : als.lookup b = some n) :
    ((registerAliases als n pending).snd).lookup b = some n := by
  induction pending generalizing als with
  | nil => exact h
  | cons a rest ih =>
      by_cases hc : (als.lookup a).isSome
      · simp [registerAliases, hc, h]
      · have hnext : (mapInsert als a n).lookup b = some n := by
          by_cases hba : b = a
          · subst hba
            exact lookup_mapInsert_self _ _ _
          · rw [lookup_mapInsert_ne _ _ _ _ hba]
            exact h
        simp only [registerAliases, hc, Bool.false_eq_true, if_false]
        exact ih _ hnext

theorem registerAliases_success_spec (pending : List String)
    (als als₂ : List (String × String)) (n : String)
    (h : registerAliases als n pending = (none, als₂)) :
    ∀ a ∈ pending, als₂.lookup a = some n := by
  induction pending generalizing als with
  | nil => intro a ha; cases ha
  | cons a rest ih =>
      by_cases hc : (als.lookup a).isSome
      · simp [registerAliases, hc] at h
      · simp only [registerAliases, hc, Bool.false_eq_true, if_false] at h
        intro b hb
        rcases List.mem_cons.mp hb with hba | hbr
        · subst hba
          have hfix : (mapInsert als b n).lookup b = some n :=
            lookup_mapInsert_self _ _ _
          have := registerAliases_preserves rest (mapInsert als b n) n b hfix
          rw [h] at this
          exact this
        · exact ih _ h b hbr

theorem registerAliases_success_of_fresh (pending : List String) :
    ∀ (als : List (String × String)) (n : String), pending.Nodup →
      (∀ a ∈ pending, (als.lookup a).isSome = false) →
      (registerAliases als n pending).fst = none := by
  induction pending with
  | nil =>
      intro als n _ _
      rfl
  | cons a rest ih =>
      intro als n hnd hfresh
      have hc : (als.lookup a).isSome = false := hfresh a (List.mem_cons_self a rest)
      simp only [registerAliases, hc, Bool.false_eq_true, if_false]
      refine ih _ n (List.Nodup.of_cons hnd) ?_
      intro b hb
      have hba : b ≠ a := by
        intro hba
        subst hba
        exact (List.nodup_cons.mp hnd).1 hb
      rw [lookup_mapInsert_ne _ _ _ _ hba]
      exact hfresh b (List.mem_cons_of_mem a hb)

/-- The claim `C1` as the code actually behaves.  A name collision is
detected up front and leaves the registry untouched; whenever the name is
fresh the tool is inserted into the name map even if a later alias check
fails (so a failed registration is not rolled back); fresh, duplicate-free
aliases never fail; and a successful registration updates all four
indices.  A tool name equal to an existing alias is not checked at all. -/
theorem register_collision_semantics (r : ToolRegistry) (tool : ToolInfo)
    (aliases : List String) :
    ((r.tools.lookup tool.name).isSome →
        register r tool aliases =
          (some ("tool " ++ tool.name ++ " already registered"), r))
    ∧ ((r.tools.lookup tool.name).isSome = false →
        (register r tool aliases).snd.tools.lookup tool.name = some tool)
    ∧ ((r.tools.lookup tool.name).isSome = false → aliases.Nodup →
        (∀ a ∈ aliases, (r.aliases.lookup a).isSome = false) →
        (register r tool aliases).fst = none)
    ∧ ((register r tool aliases).fst = none →
        (register r tool aliases).snd.tools.lookup tool.name = some tool
        ∧ (∀ a ∈ aliases,
            (register r tool aliases).snd.aliases.lookup a = some tool.name)
        ∧ (tool.category ≠ "" →
            inBucket (register r tool aliases).snd.categories tool.category tool)
        ∧ (∀ tg ∈ tool.tags,
            inBucket (register r tool aliases).snd.tagIndex tg tool)) := by
  refine ⟨?_, ?_, ?_, ?_⟩
  · intro h
    simp [register, h]
  · intro h
    simp only [register, h, Bool.false_eq_true, if_false]
    rcases hra : registerAliases r.aliases tool.name aliases with ⟨e?, als⟩
    cases e? with
    | none => simp [lookup_mapInsert_self]
    | some e => simp [lookup_mapInsert_self]
  · intro h hnd hfresh
    simp only [register, h, Bool.false_eq_true, if_false]
    rcases hra : registerAliases r.aliases tool.name aliases with ⟨e?, als⟩
    cases e? with
    | none => rfl
    | some e =>
        have hfr := registerAliases_success_of_fresh aliases r.aliases tool.name hnd hfresh
        rw [hra] at hfr
        cases hfr
  · intro hok
    by_cases h : (r.tools.lookup tool.name).isSome
    · simp [register, h] at hok
    · rw [Bool.not_eq_true] at h
      simp only [register, h, Bool.false_eq_true, if_false] at hok ⊢
      rcases hra : registerAliases r.aliases tool.name aliases with ⟨e?, als⟩
      rw [hra] at hok
      cases e? with
      | some e => simp at hok
      | none =>
          refine ⟨?_, ?_, ?_, ?_⟩
          · simp [lookup_mapInsert_self]
          · intro a ha
            simpa using registerAliases_success_spec aliases r.aliases als tool.name hra a ha
          · intro hcat
            simp only [hcat, ne_eq, not_false_iff, if_true]
            exact inBucket_mapAppend_self _ _ _
          · intro tg htg
            exact inBucket_foldl_self _ _ _ _ htg

/-- Tool fixtures for the registry counterexample. -/
def toolA : ToolInfo := ⟨"a", "", "", false, []⟩

def toolB : ToolInfo := ⟨"b", "", "", false, []⟩

/-- A tool whose name equals an alias already registered for `toolA`. -/
def toolXName : ToolInfo := ⟨"x", "", "", false, []⟩

/-- Registry holding `toolA` under name "a" with alias "x". -/
def regA : ToolRegistry := (register newRegistry toolA ["x"]).snd

/-- `C1` as stated is false: registering `toolB` with the already-used
alias "x" fails yet mutates the registry (toolB stays in the name map),
and registering a tool named "x" — colliding with the existing alias "x" —
does not fail at all. -/
theorem register_not_atomic_counterexample :
    ((register regA toolB ["x"]).fst.isSome = true
      ∧ (register regA toolB ["x"]).snd ≠ regA
      ∧ (register regA toolB ["x"]).snd.tools.lookup "b" = some toolB)
    ∧ (register regA toolXName []).fst = none := by
  decide

/-- Witness: the amended registry semantics evaluated on concrete inputs. -/
theorem register_collision_semantics_witness :
    register regA toolA [] = (some "tool a already registered", regA)
    ∧ (register newRegistry toolB ["y"]).fst = none := by
  constructor
  · exact (register_collision_semantics regA toolA []).1 (by decide)
  · exact (register_collision_semantics newRegistry toolB ["y"]).2.2.1
      (by decide) (by decide) (by decide)

/-! ## Schema and parameter validation (src/tools/core/base.go) -/

/-- `core.PropertySchema` (interfaces.go): enum and length constraints of
one declared property.  Go zero values: empty enum, zero bounds. -/
structure PropertySchema where
  type : String
  description : String
  enum : List String
  minLength : Nat
  maxLength : Nat
deriving DecidableEq, Repr

/-- `core.ParameterSchema`.  The Go `Properties` map is embedded as an
association list; `Validate` iterates it in list order (Go map iteration
order is unspecified, so no claim below depends on cross-property order). -/
structure ParameterSchema where
  type : String
  properties : List (String × PropertySchema)
  required : List String
deriving DecidableEq, Repr

/-- A `core.MapParameters` bag: the underlying `map[string]any`. -/
def Params : Type := List (String × Value)

/-- `MapParameters.GetString` for the embedded value kinds: a string is
returned as is, anything else through `fmt.Sprintf("%v", v)`. -/
def getString (v : Value) : String := goFormat v

/-- The required-key loop of `MapParameters.Validate`: first missing
required key wins. -/
def checkRequired (p : Params) : List String → Option String
  | [] => none
  | k :: rest =>
      if (List.lookup k p).isSome then checkRequired p rest
      else some ("required parameter " ++ k ++ " is missing")

/-- The per-property constraint checks of `MapParameters.Validate`: an
absent key is skipped; the enum check (on the `%v` string form) precedes
the string length checks; zero bounds are not enforced. -/
def checkProp (p : Params) (k : String) (ps : PropertySchema) : Option String :=
  match List.lookup k p with
  | none => none
  | some v =>
      if ps.enum.length > 0 && !(ps.enum.contains (goFormat v)) then
        some ("parameter " ++ k ++ " must be one of ["
          ++ String.intercalate " " ps.enum ++ "]")
      else if ps.type == "string"
          && (decide (0 < ps.minLength) && decide ((getString v).length < ps.minLength)) then
        some ("parameter " ++ k ++ " must be at least "
          ++ toString ps.minLength ++ " characters")
      else if ps.type == "string"
          && (decide (0 < ps.maxLength) && decide (ps.maxLength < (getString v).length)) then
        some ("parameter " ++ k ++ " must be at most "
          ++ toString ps.maxLength ++ " characters")
      else none

/-- The property loop of `MapParameters.Validate`. -/
def checkProps (p : Params) : List (String × PropertySchema) → Option String
  | [] => none
  | (k, ps) :: rest =>
      match checkProp p k ps with
      | some e => some e
      | none => checkProps p rest

/-- `MapParameters.Validate(schema)`: required keys first, then the
per-property enum and length constraints; `none` means valid. -/
def validate (p : Params) (schema : ParameterSchema) : Option String :=
  match checkRequired p schema.required with
  | some e => some e
  | none => checkProps p schema.properties

/-- A value satisfying one declared property's constraints, exactly the
checks `Validate` performs: enum membership of the `%v` string form when
an enum is declared, and the string length bounds when they are positive
and the property's type is "string" (`contains` coincides with list
membership for strings). -/
def satisfiesProp (ps : PropertySchema) (v : Value) : Prop :=
  (ps.enum.length > 0 → ps.enum.contains (goFormat v) = true)
  ∧ (ps.type = "string" → 0 < ps.minLength → ps.minLength ≤ (getString v).length)
  ∧ (ps.type = "string" → 0 < ps.maxLength → (getString v).length ≤ ps.maxLength)

theorem checkProp_none_of_satisfied (p : Params) (k : String) (ps : PropertySchema)
    (h : ∀ v, List.lookup k p = some v → satisfiesProp ps v) :
    checkProp p k ps = none := by
  unfold checkProp
  cases hl : List.lookup k p with
  | none => rfl
  | some v =>
      obtain ⟨h₁, h₂, h₃⟩ := h v hl
      have hm₁ : ps.enum.length > 0 → goFormat v ∈ ps.enum := by
        intro hpos
        simpa using h₁ hpos
      have hm₂ : ps.type = "string" → 0 < ps.minLength →
          ¬((getString v).length < ps.minLength) :=
        fun a b => Nat.not_lt.mpr (h₂ a b)
      have hm₃ : ps.type = "string" → 0 < ps.maxLength →
          ¬(ps.maxLength < (getString v).length) :=
        fun a b => Nat.not_lt.mpr (h₃ a b)
      simp
      rw [if_neg (fun hc => hc.2 (hm₁ hc.1)),
        if_neg (fun hc => hm₂ hc.1 hc.2.1 hc.2.2),
        if_neg (fun hc => hm₃ hc.1 hc.2.1 hc.2.2)]

theorem checkProps_none_of_satisfied (p : Params)
    (props : List (String × PropertySchema))
    (h : ∀ kps ∈ props, ∀ v, List.lookup kps.1 p = some v → satisfiesProp kps.2 v) :
    checkProps p props = none := by
  induction props with
  | nil => rfl
  | cons hd tl ih =>
      obtain ⟨k, ps⟩ := hd
      have hhd := checkProp_none_of_satisfied p k ps
        (h (k, ps) (List.mem_cons_self _ _))
      simp only [checkProps, hhd]
      exact ih fun kps hk => h kps (List.mem_cons_of_mem _ hk)

/-- The claim `C6` as the code actually behaves, for any schema whose
required list is exactly `["command"]`: a bag without "command" always
fails with the missing-required message (required keys are reported before
any property constraint); a bag with "command" present passes whenever
every present optional property's value satisfies its declared enum and
string-length constraints — but not unconditionally, see the
counterexample. -/
theorem validate_command_required (p : Params) (schema : ParameterSchema)
    (hreq : schema.required = ["command"]) :
    ((List.lookup "command" p).isSome = false →
        validate p schema = some "required parameter command is missing")
    ∧ ((List.lookup "command" p).isSome = true →
        (∀ kps ∈ schema.properties, ∀ v, List.lookup kps.1 p = some v →
            satisfiesProp kps.2 v) →
        validate p schema = none) := by
  constructor
  · intro h
    simp [validate, hreq, checkRequired, h]
  · intro h hprops
    simp [validate, hreq, checkRequired, h,
      checkProps_none_of_satisfied p _ hprops]

/-- A schema requiring `["command"]` with an enum-constrained optional
property "mode". -/
def schemaCmdMode : ParameterSchema :=
  ⟨"object", [("mode", ⟨"string", "", ["fast", "slow"], 0, 0⟩)], ["command"]⟩

/-- `C6` as stated is false: with required list `["command"]`, a bag that
does contain "command" can still fail `Validate` when an optional property
is present with a value outside its enum. -/
theorem validate_command_counterexample :
    (List.lookup "command" [("command", Value.vStr "ls"), ("mode", Value.vStr "other")]).isSome
      = true
    ∧ (validate [("command", Value.vStr "ls"), ("mode", Value.vStr "other")]
        schemaCmdMode).isSome = true := by
  decide

/-- Witness: the amended validation semantics on concrete bags — the
missing-required failure, and success with "command" present while the
enum-constrained optional "mode" carries the member value "fast". -/
theorem validate_command_required_witness :
    validate [] schemaCmdMode = some "required parameter command is missing"
    ∧ validate [("command", Value.vStr "ls"), ("mode", Value.vStr "fast")]
        schemaCmdMode = none := by
  constructor
  · exact (validate_command_required [] schemaCmdMode (by decide)).1 (by decide)
  · refine (validate_command_required
      [("command", Value.vStr "ls"), ("mode", Value.vStr "fast")]
      schemaCmdMode (by decide)).2 (by decide) ?_
    intro kps hk v hv
    have hk₂ : kps = ("mode",
        (⟨"string", "", ["fast", "slow"], 0, 0⟩ : PropertySchema)) := by
      simpa [schemaCmdMode] using hk
    subst hk₂
    have hv₂ : List.lookup "mode"
        [("command", Value.vStr "ls"), ("mode", Value.vStr "fast")] = some v := hv
    have hcalc : List.lookup "mode"
        [("command", Value.vStr "ls"), ("mode", Value.vStr "fast")]
        = some (Value.vStr "fast") := by decide
    rw [hcalc] at hv₂
    obtain rfl : Value.vStr "fast" = v := Option.some_inj.mp hv₂
    refine ⟨fun _ => ?_, fun _ h0 => absurd h0 (by decide),
      fun _ h0 => absurd h0 (by decide)⟩
    decide

/-! ## Interactive permission gate (permission/permission.go, `Manager.Request`) -/

/-- Go `unicode.IsSpace` restricted to the ASCII range — all the
whitespace a console line can carry. -/
def goIsSpace (c : Char) : Bool :=
  c = ' ' || c = '\t' || c = '\n' || c = '\r' || c = '\x0b' || c = '\x0c'

/-- Go `strings.ToLower` on one character, for the ASCII range. -/
def goToLowerChar (c : Char) : Char :=
  if 'A' ≤ c ∧ c ≤ 'Z' then Char.ofNat (c.toNat + 32) else c

/-- Go `strings.ToLower`: lower-case each character. -/
def goToLower (s : String) : String := String.mk (s.toList.map goToLowerChar)

/-- Go `strings.TrimSpace`: drop whitespace from both ends. -/
def goTrimSpace (s : String) : String :=
  String.mk (((s.toList.dropWhile goIsSpace).reverse.dropWhile goIsSpace).reverse)

/-- `permission.Manager.Request(action, description)`: the printed prompt
is pure output; the decision depends only on the one line read from the
operator, embedded as `some line`, with `none` for a read error. -/
def permissionRequest (input : Option String) : Bool :=
  match input with
  | none => false
  | some response =>
      let r := goTrimSpace (goToLower response)
      r == "y" || r == "yes"

/-- `C5`: the interactive gate answers true exactly when the line, after
lower-casing and trimming, is "y" or "yes"; a read error and the inputs
"n", "", "maybe" are all refused, while "y"/"yes" in any case and with
surrounding whitespace (including the newline kept by `ReadString`) are
accepted. -/
theorem permission_request_spec :
    (∀ s : String, permissionRequest (some s) = true
        ↔ (goTrimSpace (goToLower s) = "y" ∨ goTrimSpace (goToLower s) = "yes"))
    ∧ permissionRequest none = false
    ∧ permissionRequest (some "n\n") = false
    ∧ permissionRequest (some "") = false
    ∧ permissionRequest (some "maybe\n") = false
    ∧ permissionRequest (some "y\n") = true
    ∧ permissionRequest (some "YES\n") = true
    ∧ permissionRequest (some "  Y  \n") = true := by
  refine ⟨?_, rfl, by decide, by decide, by decide, by decide, by decide, by decide⟩
  intro s
  simp only [permissionRequest, Bool.or_eq_true, beq_iff_eq]

/-- Witness: the general iff of `C5` instantiated at "Yes\n". -/
theorem permission_request_spec_witness :
    permissionRequest (some "Yes\n") = true := by
  exact (permission_request_spec.1 "Yes\n").mpr (by decide)

/-! ## Stream accumulator (agent/provider.go)

`StreamResponse` and `StreamResponseWithHistory` both reconstruct tool
calls from streamed deltas.  A frame carries a text fragment and a list of
tool-call deltas; a delta with a non-empty id opens a new call, one with
an empty id continues the currently open call.  `StreamResponse` executes
an open call the moment the next id arrives (and the last one at end of
stream); `StreamResponseWithHistory` collects the calls and executes them
all after the stream ends, in first-seen order. -/

/-- One tool-call delta of a stream frame (`openai.ToolCall` inside
`delta.ToolCalls`). -/
structure ToolCallDelta where
  id : String
  name : String
  args : String
deriving DecidableEq, Repr

/-- One frame of the completion stream (`delta.Content` plus
`delta.ToolCalls`). -/
structure StreamFrame where
  content : String
  toolCalls : List ToolCallDelta
deriving DecidableEq, Repr

/-- A (possibly still accumulating) tool call. -/
structure ToolCall where
  id : String
  name : String
  args : String
deriving DecidableEq, Repr

/-- State of `StreamResponse`: forwarded text, the open call
(`currentToolCall`), and the calls already handed to `executeToolCall`,
in execution order. -/
structure SRState where
  texts : List String
  current : Option ToolCall
  executed : List ToolCall
deriving DecidableEq, Repr

def srInit : SRState := ⟨[], none, []⟩

/-- One tool-call delta in `StreamResponse`: a non-empty id flushes
(executes) the open call and opens a new one; an empty id appends its
fragment to the open call and is dropped if none is open. -/
def srProcessDelta (st : SRState) (d : ToolCallDelta) : SRState :=
  if d.id ≠ "" then
    match st.current with
    | some c =>
        { st with current := some ⟨d.id, d.name, d.args⟩,
                  executed := st.executed ++ [c] }
    | none => { st with current := some ⟨d.id, d.name, d.args⟩ }
  else
    match st.current with
    | some c => { st with current := some ⟨c.id, c.name, c.args ++ d.args⟩ }
    | none => st

/-- One frame in `StreamResponse`: text is forwarded immediately,
independently of the tool-call channel. -/
def srProcessFrame (st : SRState) (f : StreamFrame) : SRState :=
  f.toolCalls.foldl srProcessDelta
    (if f.content ≠ "" then { st with texts := st.texts ++ [f.content] } else st)

/-- The whole `StreamResponse` receive loop: process every frame, then
flush the still-open call at end of stream. -/
def srRun (frames : List StreamFrame) : SRState :=
  match frames.foldl srProcessFrame srInit with
  | ⟨texts, some c, executed⟩ => ⟨texts, none, executed ++ [c]⟩
  | st => st

/-- State of `StreamResponseWithHistory`: forwarded text, the open call,
and the `toolCalls` slice whose last element mirrors the open call. -/
structure SRHState where
  texts : List String
  current : Option ToolCall
  toolCalls : List ToolCall
deriving DecidableEq, Repr

def srhInit : SRHState := ⟨[], none, []⟩

/-- `toolCalls[len(toolCalls)-1].Function.Arguments = ...`: replace the
argument buffer of the last collected call. -/
def updateLastArgs : List ToolCall → String → List ToolCall
  | [], _ => []
  | [c], a => [⟨c.id, c.name, a⟩]
  | c :: c₂ :: rest, a => c :: updateLastArgs (c₂ :: rest) a

/-- One tool-call delta in `StreamResponseWithHistory`: a non-empty id
opens a new call and appends it to the collected list; an empty id while
a call is open appends its fragment verbatim to the open call's argument
buffer (mirrored into the last collected call); otherwise it is dropped. -/
def srhProcessDelta (st : SRHState) (d : ToolCallDelta) : SRHState :=
  if d.id ≠ "" then
    { st with current := some ⟨d.id, d.name, d.args⟩,
              toolCalls := st.toolCalls ++ [⟨d.id, d.name, d.args⟩] }
  else
    match st.current with
    | some c =>
        { st with current := some ⟨c.id, c.name, c.args ++ d.args⟩,
                  toolCalls :=
                    if st.toolCalls.length > 0 then
                      updateLastArgs st.toolCalls (c.args ++ d.args)
                    else st.toolCalls }
    | none => st

/-- One frame in `StreamResponseWithHistory`. -/
def srhProcessFrame (st : SRHState) (f : StreamFrame) : SRHState :=
  f.toolCalls.foldl srhProcessDelta
    (if f.content ≠ "" then { st with texts := st.texts ++ [f.content] } else st)

/-- The `StreamResponseWithHistory` receive loop. -/
def srhRun (frames : List StreamFrame) : SRHState :=
  frames.foldl srhProcessFrame srhInit

/-- The completed calls `StreamResponseWithHistory` executes after the
stream ends, in first-seen order. -/
def srhCompleted (frames : List StreamFrame) : List ToolCall :=
  (srhRun frames).toolCalls

/-- A frame carrying a single continuation fragment (empty id). -/
def fragFrame (a : String) : StreamFrame := ⟨"", [⟨"", "", a⟩]⟩

/-- A frame opening a new call. -/
def idFrame (id n a : String) : StreamFrame := ⟨"", [⟨id, n, a⟩]⟩

/-- Concatenation of argument fragments. -/
def strJoin : List String → String
  | [] => ""
  | a :: rest => a ++ strJoin rest

/-! A minimal model of `encoding/json.Unmarshal` for the flat,
string-valued objects the claims evaluate (no escape sequences). -/

/-- Scan a string literal body up to the closing quote. -/
def takeStringLitAux : List Char → List Char → Option (String × List Char)
  | [], _ => none
  | '"' :: rest, acc => some (String.mk acc.reverse, rest)
  | c :: rest, acc => takeStringLitAux rest (c :: acc)

/-- Parse a leading `"..."` literal. -/
def takeStringLit : List Char → Option (String × List Char)
  | '"' :: rest => takeStringLitAux rest []
  | _ => none

/-- Parse `"k":"v"` pairs separated by commas up to the closing brace. -/
def jsonPairsAux : Nat → List Char → Option (List (String × String))
  | 0, _ => none
  | fuel + 1, cs =>
      match takeStringLit cs with
      | none => none
      | some (k, rest₁) =>
          match rest₁ with
          | ':' :: rest₂ =>
              match takeStringLit rest₂ with
              | none => none
              | some (v, rest₃) =>
                  match rest₃ with
                  | '}' :: rest₄ => if rest₄ = [] then some [(k, v)] else none
                  | ',' :: rest₄ =>
                      match jsonPairsAux fuel rest₄ with
                      | none => none
                      | some ps => some ((k, v) :: ps)
                  | _ => none
          | _ => none

/-- Decode a flat JSON object with string values. -/
def decodeFlatJson (s : String) : Option (List (String × String)) :=
  match s.toList with
  | '{' :: '}' :: rest => if rest = [] then some [] else none
  | '{' :: rest => jsonPairsAux rest.length rest
  | _ => none

theorem updateLastArgs_append (done : List ToolCall) (c : ToolCall) (a : String) :
    updateLastArgs (done ++ [c]) a = done ++ [⟨c.id, c.name, a⟩] := by
  induction done with
  | nil => rfl
  | cons d ds ih =>
      cases ds with
      | nil => simp [updateLastArgs]
      | cons e es =>
          simp only [List.cons_append, updateLastArgs] at ih ⊢
          show d :: updateLastArgs (e :: (es ++ [c])) a
            = d :: (e :: (es ++ [⟨c.id, c.name, a⟩]))
          rw [ih]

theorem srProcess_frags (frags : List String) :
    ∀ (st : SRState) (c : ToolCall), st.current = some c →
      (frags.map fragFrame).foldl srProcessFrame st =
        { st with current := some ⟨c.id, c.name, c.args ++ strJoin frags⟩ } := by
  induction frags with
  | nil =>
      intro st c h
      obtain ⟨texts, cur, ex⟩ := st
      simp only [SRState.current] at h
      subst h
      simp [strJoin]
  | cons a rest ih =>
      intro st c h
      simp only [List.map_cons, List.foldl_cons]
      have hstep : srProcessFrame st (fragFrame a) =
          { st with current := some ⟨c.id, c.name, c.args ++ a⟩ } := by
        simp [srProcessFrame, fragFrame, srProcessDelta, h]
      rw [hstep, ih _ ⟨c.id, c.name, c.args ++ a⟩ rfl]
      simp [strJoin, String.append_assoc]

theorem srhProcess_frags (frags : List String) :
    ∀ (st : SRHState) (c : ToolCall) (done : List ToolCall),
      st.current = some c → st.toolCalls = done ++ [c] →
      (frags.map fragFrame).foldl srhProcessFrame st =
        { st with current := some ⟨c.id, c.name, c.args ++ strJoin frags⟩,
                  toolCalls := done ++ [⟨c.id, c.name, c.args ++ strJoin frags⟩] } := by
  induction frags with
  | nil =>
      intro st c done h ht
      obtain ⟨texts, cur, tcs⟩ := st
      simp only [SRHState.current, SRHState.toolCalls] at h ht
      subst h
      subst ht
      simp [strJoin]
  | cons a rest ih =>
      intro st c done h ht
      simp only [List.map_cons, List.foldl_cons]
      have hstep : srhProcessFrame st (fragFrame a) =
          { st with current := some ⟨c.id, c.name, c.args ++ a⟩,
                    toolCalls := done ++ [⟨c.id, c.name, c.args ++ a⟩] } := by
        simp [srhProcessFrame, fragFrame, srhProcessDelta, h, ht, updateLastArgs_append]
      rw [hstep, ih _ ⟨c.id, c.name, c.args ++ a⟩ done rfl rfl]
      simp [strJoin, String.append_assoc]

/-- `C4`: a stream opening call `id₁` followed by continuation fragments,
then call `id₂` followed by more fragments.  Both accumulators emit the
two completed calls in first-seen order; in `StreamResponse` the first
call is executed the moment the `id₂` frame is processed, strictly before
any fragment of the second call is accumulated, and no later fragment ever
reaches the first call's argument buffer. -/
theorem accumulator_two_calls (id₁ n₁ a₀ id₂ n₂ b₀ : String)
    (frags₁ frags₂ : List String) (h₁ : id₁ ≠ "") (h₂ : id₂ ≠ "") :
    (srRun (idFrame id₁ n₁ a₀ :: (frags₁.map fragFrame
        ++ idFrame id₂ n₂ b₀ :: frags₂.map fragFrame))).executed
      = [⟨id₁, n₁, a₀ ++ strJoin frags₁⟩, ⟨id₂, n₂, b₀ ++ strJoin frags₂⟩]
    ∧ srhCompleted (idFrame id₁ n₁ a₀ :: (frags₁.map fragFrame
        ++ idFrame id₂ n₂ b₀ :: frags₂.map fragFrame))
      = [⟨id₁, n₁, a₀ ++ strJoin frags₁⟩, ⟨id₂, n₂, b₀ ++ strJoin frags₂⟩]
    ∧ List.foldl srProcessFrame srInit
        (idFrame id₁ n₁ a₀ :: (frags₁.map fragFrame ++ [idFrame id₂ n₂ b₀]))
      = ⟨[], some ⟨id₂, n₂, b₀⟩, [⟨id₁, n₁, a₀ ++ strJoin frags₁⟩]⟩ := by
  have e₁ : srProcessFrame srInit (idFrame id₁ n₁ a₀)
      = ⟨[], some ⟨id₁, n₁, a₀⟩, []⟩ := by
    simp [srProcessFrame, idFrame, srProcessDelta, srInit, h₁]
  have e₂ : (frags₁.map fragFrame).foldl srProcessFrame ⟨[], some ⟨id₁, n₁, a₀⟩, []⟩
      = ⟨[], some ⟨id₁, n₁, a₀ ++ strJoin frags₁⟩, []⟩ := by
    simpa using srProcess_frags frags₁ ⟨[], some ⟨id₁, n₁, a₀⟩, []⟩ ⟨id₁, n₁, a₀⟩ rfl
  have e₃ : srProcessFrame ⟨[], some ⟨id₁, n₁, a₀ ++ strJoin frags₁⟩, []⟩
        (idFrame id₂ n₂ b₀)
      = ⟨[], some ⟨id₂, n₂, b₀⟩, [⟨id₁, n₁, a₀ ++ strJoin frags₁⟩]⟩ := by
    simp [srProcessFrame, idFrame, srProcessDelta, h₂]
  have e₄ : (frags₂.map fragFrame).foldl srProcessFrame
        ⟨[], some ⟨id₂, n₂, b₀⟩, [⟨id₁, n₁, a₀ ++ strJoin frags₁⟩]⟩
      = ⟨[], some ⟨id₂, n₂, b₀ ++ strJoin frags₂⟩,
          [⟨id₁, n₁, a₀ ++ strJoin frags₁⟩]⟩ := by
    simpa using srProcess_frags frags₂
      ⟨[], some ⟨id₂, n₂, b₀⟩, [⟨id₁, n₁, a₀ ++ strJoin frags₁⟩]⟩ ⟨id₂, n₂, b₀⟩ rfl
  have hsr : List.foldl srProcessFrame srInit
      (idFrame id₁ n₁ a₀ :: (frags₁.map fragFrame
        ++ idFrame id₂ n₂ b₀ :: frags₂.map fragFrame))
      = ⟨[], some ⟨id₂, n₂, b₀ ++ strJoin frags₂⟩,
          [⟨id₁, n₁, a₀ ++ strJoin frags₁⟩]⟩ := by
    rw [List.foldl_cons, e₁, List.foldl_append, e₂, List.foldl_cons, e₃, e₄]
  have f₁ : srhProcessFrame srhInit (idFrame id₁ n₁ a₀)
      = ⟨[], some ⟨id₁, n₁, a₀⟩, [⟨id₁, n₁, a₀⟩]⟩ := by
    simp [srhProcessFrame, idFrame, srhProcessDelta, srhInit, h₁]
  have f₂ : (frags₁.map fragFrame).foldl srhProcessFrame
        ⟨[], some ⟨id₁, n₁, a₀⟩, [⟨id₁, n₁, a₀⟩]⟩
      = ⟨[], some ⟨id₁, n₁, a₀ ++ strJoin frags₁⟩,
          [⟨id₁, n₁, a₀ ++ strJoin frags₁⟩]⟩ := by
    simpa using srhProcess_frags frags₁ ⟨[], some ⟨id₁, n₁, a₀⟩, [⟨id₁, n₁, a₀⟩]⟩
      ⟨id₁, n₁, a₀⟩ [] rfl rfl
  have f₃ : srhProcessFrame
        ⟨[], some ⟨id₁, n₁, a₀ ++ strJoin frags₁⟩, [⟨id₁, n₁, a₀ ++ strJoin frags₁⟩]⟩
        (idFrame id₂ n₂ b₀)
      = ⟨[], some ⟨id₂, n₂, b₀⟩,
          [⟨id₁, n₁, a₀ ++ strJoin frags₁⟩, ⟨id₂, n₂, b₀⟩]⟩ := by
    simp [srhProcessFrame, idFrame, srhProcessDelta, h₂]
  have f₄ : (frags₂.map fragFrame).foldl srhProcessFrame
        ⟨[], some ⟨id₂, n₂, b₀⟩, [⟨id₁, n₁, a₀ ++ strJoin frags₁⟩, ⟨id₂, n₂, b₀⟩]⟩
      = ⟨[], some ⟨id₂, n₂, b₀ ++ strJoin frags₂⟩,
          [⟨id₁, n₁, a₀ ++ strJoin frags₁⟩, ⟨id₂, n₂, b₀ ++ strJoin frags₂⟩]⟩ := by
    simpa using srhProcess_frags frags₂
      ⟨[], some ⟨id₂, n₂, b₀⟩, [⟨id₁, n₁, a₀ ++ strJoin frags₁⟩, ⟨id₂, n₂, b₀⟩]⟩
      ⟨id₂, n₂, b₀⟩ [⟨id₁, n₁, a₀ ++ strJoin frags₁⟩] rfl rfl
  refine ⟨?_, ?_, ?_⟩
  · simp [srRun, hsr]
  · simp only [srhCompleted, srhRun, List.foldl_cons, f₁, List.foldl_append, f₂,
      List.foldl_cons, f₃, f₄]
  · rw [List.foldl_cons, e₁, List.foldl_append, e₂]
    simpa using e₃

/-- Witness: `C4` at a concrete two-call stream. -/
theorem accumulator_two_calls_witness :
    (srRun (idFrame "1" "bash" "x" :: ([fragFrame "y"]
        ++ idFrame "2" "read" "p" :: [fragFrame "q"]))).executed
      = [⟨"1", "bash", "xy"⟩, ⟨"2", "read", "pq"⟩] := by
  have h := (accumulator_two_calls "1" "bash" "x" "2" "read" "p" ["y"] ["q"]
    (by decide) (by decide)).1
  simpa using h

/-- The concrete `C3` stream: one call whose JSON argument payload is
split across two frames at an arbitrary byte boundary. -/
def c3Frames : List StreamFrame :=
  [idFrame "1" "bash" "\x7b\"command\":\"", fragFrame "ls\"\x7d"]

/-- `C3`: an empty-id continuation fragment is appended verbatim to the
open call's argument buffer, and the two-frame split stream yields exactly
one completed call whose reassembled raw arguments JSON-decode to
`\x7b"command":"ls"\x7d`. -/
theorem accumulator_reassembles_split_arguments (st : SRHState) (c : ToolCall)
    (n frag : String) (h : st.current = some c) :
    (srhProcessDelta st ⟨"", n, frag⟩).current = some ⟨c.id, c.name, c.args ++ frag⟩
    ∧ srhCompleted c3Frames = [⟨"1", "bash", "\x7b\"command\":\"ls\"\x7d"⟩]
    ∧ decodeFlatJson "\x7b\"command\":\"ls\"\x7d" = some [("command", "ls")] := by
  refine ⟨?_, by decide, by decide⟩
  obtain ⟨texts, cur, tcs⟩ := st
  simp only [SRHState.current] at h
  subst h
  simp [srhProcessDelta]

/-- Witness: `C3`'s verbatim-append at a concrete open call. -/
theorem accumulator_reassembles_split_arguments_witness :
    (srhProcessDelta ⟨[], some ⟨"1", "bash", "ab"⟩, [⟨"1", "bash", "ab"⟩]⟩
        ⟨"", "", "cd"⟩).current = some ⟨"1", "bash", "abcd"⟩ := by
  exact (accumulator_reassembles_split_arguments
    ⟨[], some ⟨"1", "bash", "ab"⟩, [⟨"1", "bash", "ab"⟩]⟩ ⟨"1", "bash", "ab"⟩
    "" "cd" rfl).1

/-- `C10`: an empty-id delta arriving while no call is open is silently
dropped by both accumulators — the state is unchanged, no completed call
is created, and the remaining frames are processed exactly as if the
orphan fragment had never arrived. -/
theorem accumulator_orphan_fragment (n frag : String) (rest : List StreamFrame)
    (st : SRState) (sth : SRHState) (h : st.current = none) (hh : sth.current = none) :
    srProcessDelta st ⟨"", n, frag⟩ = st
    ∧ srhProcessDelta sth ⟨"", n, frag⟩ = sth
    ∧ srRun (fragFrame frag :: rest) = srRun rest
    ∧ srhCompleted (fragFrame frag :: rest) = srhCompleted rest
    ∧ srhCompleted [fragFrame frag] = [] := by
  refine ⟨?_, ?_, rfl, rfl, rfl⟩
  · obtain ⟨texts, cur, ex⟩ := st
    simp only [SRState.current] at h
    subst h
    rfl
  · obtain ⟨texts, cur, tcs⟩ := sth
    simp only [SRHState.current] at hh
    subst hh
    rfl

/-- Witness: `C10` at the empty initial state. -/
theorem accumulator_orphan_fragment_witness :
    srhCompleted [fragFrame "xyz", idFrame "7" "read" "", fragFrame "ab"]
      = srhCompleted [idFrame "7" "read" "", fragFrame "ab"] := by
  exact (accumulator_orphan_fragment "" "xyz"
    [idFrame "7" "read" "", fragFrame "ab"] srInit srhInit rfl rfl).2.2.2.1

/-! ## Agent loop (agent/agent.go) and tool dispatch (agent/provider.go)

`RunOnce` and `RunInteractive` drive up to `maxRounds` rounds (10 and 5):
each round streams a response (abstracted as a `provider` function of the
message history), appends one assistant message, stops when no tool calls
were produced, and otherwise executes every call, appending one tool-result
message per call, before looping.  Falling out of the loop returns `nil`. -/

inductive Role where
  | system
  | user
  | assistant
deriving DecidableEq, Repr

/-- `openai.ChatCompletionMessage`, reduced to the fields the loop uses. -/
structure Message where
  role : Role
  content : String
deriving DecidableEq, Repr

/-- What one `StreamResponseWithTools` round delivers to the loop: the
concatenated text deltas and the collected tool calls. -/
structure RoundOutput where
  text : String
  toolCalls : List ToolCall
deriving DecidableEq, Repr

/-- One entry of `Provider.tools`: a named tool body. -/
structure ToolImpl where
  name : String
  exec : Params → Except String String

/-- The linear scan over `p.tools` in `executeToolCall`. -/
def findTool (ts : List ToolImpl) (n : String) : Option ToolImpl :=
  ts.find? (fun t => t.name == n)

/-- `Provider.executeToolCall`: resolve the tool by name, JSON-decode the
raw arguments (`decode` abstracts `json.Unmarshal`), then execute. -/
def executeToolCall (ts : List ToolImpl) (decode : String → Option Params)
    (tc : ToolCall) : Except String String :=
  match findTool ts tc.name with
  | none => Except.error ("tool not found: " ++ tc.name)
  | some t =>
      match decode tc.args with
      | none => Except.error "failed to parse tool arguments"
      | some p => t.exec p

/-- The per-call handling in the dispatch loops of `RunOnce` and
`RunInteractive`: a failed call is converted into an error string and fed
back into the conversation as that tool's result message. -/
def toolResultMessage (execTool : ToolCall → Except String String)
    (tc : ToolCall) : Message :=
  ⟨Role.user, "Tool [" ++ tc.name ++ "] result:\n" ++
    (match execTool tc with
     | Except.ok r => r
     | Except.error e => "Error executing tool: " ++ e)⟩

/-- Outcome of a loop run: the final message history, the returned error
(`Except.ok ()` embeds Go's `nil`), and how many rounds were started. -/
structure AgentRunResult where
  messages : List Message
  result : Except String Unit
  roundsStarted : Nat
deriving Repr

/-- The `for round := 0; round < maxRounds; round++` loop shared by
`RunOnce` and `RunInteractive`: fuel counts the remaining rounds.  A
stream error aborts with an error; a round without tool calls breaks; and
exhausting the fuel falls out of the loop returning `Except.ok ()` — the
code prints "Task completed" and reports nothing about the limit. -/
def runRounds (provider : List Message → Except String RoundOutput)
    (execTool : ToolCall → Except String String) :
    Nat → List Message → AgentRunResult
  | 0, msgs => ⟨msgs, Except.ok (), 0⟩
  | fuel + 1, msgs =>
      match provider msgs with
      | Except.error e => ⟨msgs, Except.error ("failed to get response: " ++ e), 1⟩
      | Except.ok out =>
          if out.toolCalls.isEmpty then
            ⟨msgs ++ [⟨Role.assistant, out.text⟩], Except.ok (), 1⟩
          else
            let r := runRounds provider execTool fuel
              (msgs ++ [⟨Role.assistant, out.text⟩]
                ++ out.toolCalls.map (toolResultMessage execTool))
            ⟨r.messages, r.result, r.roundsStarted + 1⟩

/-- `maxRounds := 10` in `RunOnce`. -/
def runOnceMaxRounds : Nat := 10

/-- `maxRounds := 5` in `RunInteractive`. -/
def runInteractiveMaxRounds : Nat := 5

/-- `Agent.RunOnce`: append the user prompt, then loop. -/
def runOnce (provider : List Message → Except String RoundOutput)
    (execTool : ToolCall → Except String String)
    (conversation : List Message) (prompt : String) : AgentRunResult :=
  runRounds provider execTool runOnceMaxRounds
    (conversation ++ [⟨Role.user, prompt⟩])

/-- `Agent.RunInteractive`: same loop with the smaller limit. -/
def runInteractive (provider : List Message → Except String RoundOutput)
    (execTool : ToolCall → Except String String)
    (conversation : List Message) (prompt : String) : AgentRunResult :=
  runRounds provider execTool runInteractiveMaxRounds
    (conversation ++ [⟨Role.user, prompt⟩])

theorem runRounds_le (provider : List Message → Except String RoundOutput)
    (execTool : ToolCall → Except String String) :
    ∀ (fuel : Nat) (msgs : List Message),
      (runRounds provider execTool fuel msgs).roundsStarted ≤ fuel := by
  intro fuel
  induction fuel with
  | zero =>
      intro msgs
      exact Nat.le_refl 0
  | succ n ih =>
      intro msgs
      simp only [runRounds]
      cases hp : provider msgs with
      | error e => exact Nat.succ_le_succ (Nat.zero_le n)
      | ok out =>
          by_cases hb : out.toolCalls.isEmpty
          · simp only [hb, if_true]
            exact Nat.succ_le_succ (Nat.zero_le n)
          · simp only [hb, Bool.false_eq_true, if_false]
            exact Nat.succ_le_succ (ih _)

theorem runRounds_saturates (provider : List Message → Except String RoundOutput)
    (execTool : ToolCall → Except String String)
    (h : ∀ msgs, ∃ out, provider msgs = Except.ok out ∧ out.toolCalls ≠ []) :
    ∀ (fuel : Nat) (msgs : List Message),
      (runRounds provider execTool fuel msgs).roundsStarted = fuel
      ∧ (runRounds provider execTool fuel msgs).result = Except.ok () := by
  intro fuel
  induction fuel with
  | zero =>
      intro msgs
      exact ⟨rfl, rfl⟩
  | succ n ih =>
      intro msgs
      obtain ⟨out, hp, hne⟩ := h msgs
      have hb : out.toolCalls.isEmpty = false := by
        cases hc : out.toolCalls with
        | nil => exact absurd hc hne
        | cons a l => rfl
      simp only [runRounds, hp, hb, Bool.false_eq_true, if_false]
      exact ⟨congrArg (· + 1) (ih _).1, (ih _).2⟩

/-- The claim `C2` as the code actually behaves: with every round
producing tool calls, `RunOnce` starts exactly 10 rounds and
`RunInteractive` exactly 5, never a round beyond the limit — but the run
then returns `nil` (embedded `Except.ok ()`): no `RoundLimitExceeded`
condition exists in the code, so nothing is reported to the caller. -/
theorem agent_round_limit (provider : List Message → Except String RoundOutput)
    (execTool : ToolCall → Except String String)
    (conversation : List Message) (prompt : String)
    (h : ∀ msgs, ∃ out, provider msgs = Except.ok out ∧ out.toolCalls ≠ []) :
    (runOnce provider execTool conversation prompt).roundsStarted = 10
    ∧ (runInteractive provider execTool conversation prompt).roundsStarted = 5
    ∧ (runOnce provider execTool conversation prompt).result = Except.ok ()
    ∧ (runInteractive provider execTool conversation prompt).result = Except.ok ()
    ∧ (∀ fuel msgs, (runRounds provider execTool fuel msgs).roundsStarted ≤ fuel) := by
  refine ⟨?_, ?_, ?_, ?_, runRounds_le provider execTool⟩
  · exact (runRounds_saturates provider execTool h runOnceMaxRounds _).1
  · exact (runRounds_saturates provider execTool h runInteractiveMaxRounds _).1
  · exact (runRounds_saturates provider execTool h runOnceMaxRounds _).2
  · exact (runRounds_saturates provider execTool h runInteractiveMaxRounds _).2

/-- A provider whose every round requests another bash call. -/
def loopProvider : List Message → Except String RoundOutput :=
  fun _ => Except.ok ⟨"", [⟨"1", "bash", "\x7b\x7d"⟩]⟩

/-- A tool body that always succeeds. -/
def okExec : ToolCall → Except String String := fun _ => Except.ok "done"

/-- `C2` as stated is false: driving `RunOnce` with a provider that
produces a tool call every round runs exactly the 10 configured rounds
but then terminates returning `nil` — the caller receives a success, not
a `RoundLimitExceeded` condition. -/
theorem agent_round_limit_counterexample :
    (runOnce loopProvider okExec [] "go").roundsStarted = 10
    ∧ (runOnce loopProvider okExec [] "go").result = Except.ok () := by
  exact ⟨rfl, rfl⟩

/-- Witness: the amended round-limit semantics at the concrete looping
provider. -/
theorem agent_round_limit_witness :
    (runInteractive loopProvider okExec [] "go").roundsStarted = 5
    ∧ (runInteractive loopProvider okExec [] "go").result = Except.ok () := by
  have h := agent_round_limit loopProvider okExec [] "go"
    (fun _ => ⟨⟨"", [⟨"1", "bash", "\x7b\x7d"⟩]⟩, rfl, by decide⟩)
  exact ⟨h.2.1, h.2.2.2.1⟩

/-- `C9`: every per-call failure — unknown tool name, JSON decode
failure, or a failing tool body (permission denials surface as tool-body
errors) — becomes an error string inside that call's result message; the
round still appends exactly one message per call, and the loop proceeds
into the next round instead of aborting. -/
theorem per_call_failures_do_not_abort
    (ts : List ToolImpl) (decode : String → Option Params)
    (provider : List Message → Except String RoundOutput)
    (fuel : Nat) (msgs : List Message) (out : RoundOutput)
    (hp : provider msgs = Except.ok out) (hne : out.toolCalls.isEmpty = false) :
    (∀ tc : ToolCall, findTool ts tc.name = none →
        executeToolCall ts decode tc = Except.error ("tool not found: " ++ tc.name))
    ∧ (∀ (tc : ToolCall) (t : ToolImpl), findTool ts tc.name = some t →
        decode tc.args = none →
        executeToolCall ts decode tc = Except.error "failed to parse tool arguments")
    ∧ (∀ (tc : ToolCall) (e : String), executeToolCall ts decode tc = Except.error e →
        toolResultMessage (executeToolCall ts decode) tc =
          ⟨Role.user, "Tool [" ++ tc.name ++ "] result:\n"
            ++ ("Error executing tool: " ++ e)⟩)
    ∧ (out.toolCalls.map (toolResultMessage (executeToolCall ts decode))).length
        = out.toolCalls.length
    ∧ (runRounds provider (executeToolCall ts decode) (fuel + 1) msgs).messages
        = (runRounds provider (executeToolCall ts decode) fuel
            (msgs ++ [⟨Role.assistant, out.text⟩]
              ++ out.toolCalls.map (toolResultMessage (executeToolCall ts decode)))).messages
    ∧ (runRounds provider (executeToolCall ts decode) (fuel + 1) msgs).roundsStarted
        = (runRounds provider (executeToolCall ts decode) fuel
            (msgs ++ [⟨Role.assistant, out.text⟩]
              ++ out.toolCalls.map (toolResultMessage (executeToolCall ts decode)))).roundsStarted
          + 1 := by
  refine ⟨?_, ?_, ?_, List.length_map _ _, ?_, ?_⟩
  · intro tc hfind
    simp [executeToolCall, hfind]
  · intro tc t hfind hdec
    simp [executeToolCall, hfind, hdec]
  · intro tc e he
    simp [toolResultMessage, he]
  · simp only [runRounds, hp, hne, Bool.false_eq_true, if_false]
  · simp only [runRounds, hp, hne, Bool.false_eq_true, if_false]

/-- A tool set whose only tool always fails. -/
def failingTools : List ToolImpl :=
  [⟨"test_tool", fun _ => Except.error "execution failed"⟩]

/-- A provider producing one call to a tool that is not registered. -/
def missingToolProvider : List Message → Except String RoundOutput :=
  fun _ => Except.ok ⟨"", [⟨"c1", "missing_tool", "\x7b\x7d"⟩]⟩

/-- Witness: `C9` at a concrete unknown-tool call. -/
theorem per_call_failures_do_not_abort_witness :
    toolResultMessage (executeToolCall failingTools (fun _ => some []))
        ⟨"c1", "missing_tool", "\x7b\x7d"⟩
      = ⟨Role.user,
          "Tool [missing_tool] result:\nError executing tool: tool not found: missing_tool"⟩ := by
  have h := per_call_failures_do_not_abort failingTools (fun _ => some [])
    missingToolProvider 0 [] ⟨"", [⟨"c1", "missing_tool", "\x7b\x7d"⟩]⟩ rfl rfl
  exact h.2.2.1 ⟨"c1", "missing_tool", "\x7b\x7d"⟩ _ (h.1 ⟨"c1", "missing_tool", "\x7b\x7d"⟩ rfl)

/-! ## Pipeline combinators (tools/core/pipeline.go)

`ToolPipeline.Execute` runs its steps sequentially, optionally injecting
the previous step's successful result under `_previous_result`, and stops
at the first failing step.  `ParallelPipeline.Execute` runs one worker per
step, each writing only its own slot, joins them all, and scans the error
slots in index order for the first error.  The governing context is
modelled as never cancelled (cancellation is a real-time concern outside
the embedding). -/

/-- `core.SimpleResult`, reduced to the fields the pipeline claims use:
`Success()` is `err == nil`, `Data()` is the payload. -/
structure SimpleResult where
  data : Option Value := none
  err : Option String := none
  metadata : List (String × Value) := []
deriving DecidableEq, Repr

/-- `SimpleResult.Success()`. -/
def SimpleResult.success (r : SimpleResult) : Bool := r.err.isNone

/-- `core.PipelineStep`: the tool's registered name, its `Execute` body
(abstracted to a function from the parameter bag to an error or the
success result's data), and the bound parameters. -/
structure PStep where
  name : String
  exec : Params → Except String Value
  params : Params

/-- The `_previous_result` injection at the top of each sequential
iteration: only when this is not the first step, some results exist, and
the previous (last collected) result succeeded. -/
def injectPrev (i : Nat) (results : List SimpleResult) (p : Params) : Params :=
  if i > 0 ∧ results ≠ [] then
    match results.getLast? with
    | some prev =>
        if prev.success then mapInsert p "_previous_result" (prev.data.getD Value.vNull)
        else p
    | none => p
  else p

/-- The loop body of `ToolPipeline.Execute`: on a step failure, append an
error result carrying step/tool metadata and return immediately with an
error naming the step index and the tool; otherwise collect the result
and continue. -/
def pipelineExecuteAux :
    List PStep → Nat → List SimpleResult → List SimpleResult × Option String
  | [], _, results => (results, none)
  | step :: rest, i, results =>
      match step.exec (injectPrev i results step.params) with
      | Except.error e =>
          (results ++ [⟨none, some e,
              [("step", Value.vInt i), ("tool", Value.vStr step.name)]⟩],
           some ("pipeline failed at step " ++ toString i
              ++ " (" ++ step.name ++ "): " ++ e))
      | Except.ok v => pipelineExecuteAux rest (i + 1) (results ++ [⟨some v, none, []⟩])

/-- `ToolPipeline.Execute` with a never-cancelled context. -/
def pipelineExecute (steps : List PStep) : List SimpleResult × Option String :=
  pipelineExecuteAux steps 0 []

theorem pipelineExecuteAux_spec :
    ∀ (steps : List PStep) (i : Nat) (acc : List SimpleResult),
    ((pipelineExecuteAux steps i acc).snd = none →
        (pipelineExecuteAux steps i acc).fst.length = acc.length + steps.length)
    ∧ (∀ msg, (pipelineExecuteAux steps i acc).snd = some msg →
        ∃ (k : Nat) (step : PStep) (e : String),
          steps[k]? = some step
          ∧ (pipelineExecuteAux steps i acc).fst.length = acc.length + k + 1
          ∧ msg = "pipeline failed at step " ++ toString (i + k)
              ++ " (" ++ step.name ++ "): " ++ e
          ∧ (pipelineExecuteAux steps i acc).fst[acc.length + k]? =
              some ⟨none, some e,
                [("step", Value.vInt (i + k)), ("tool", Value.vStr step.name)]⟩) := by
  intro steps
  induction steps with
  | nil =>
      intro i acc
      refine ⟨fun _ => by simp [pipelineExecuteAux], fun msg hmsg => ?_⟩
      simp [pipelineExecuteAux] at hmsg
  | cons step rest ih =>
      intro i acc
      cases hex : step.exec (injectPrev i acc step.params) with
      | error e =>
          refine ⟨fun hnone => ?_, fun msg hmsg => ?_⟩
          · simp [pipelineExecuteAux, hex] at hnone
          · refine ⟨0, step, e, List.getElem?_cons_zero, ?_, ?_, ?_⟩
            · simp [pipelineExecuteAux, hex]
            · simp only [pipelineExecuteAux, hex] at hmsg
              simp only [Nat.add_zero]
              exact (Option.some_inj.mp hmsg).symm
            · simp only [pipelineExecuteAux, hex, Nat.add_zero]
              exact List.getElem?_concat_length _ _
      | ok v =>
          have ihr := ih (i + 1) (acc ++ [⟨some v, none, []⟩])
          refine ⟨fun hnone => ?_, fun msg hmsg => ?_⟩
          · simp only [pipelineExecuteAux, hex] at hnone ⊢
            have := ihr.1 hnone
            simp only [List.length_append, List.length_cons, List.length_nil] at this ⊢
            omega
          · simp only [pipelineExecuteAux, hex] at hmsg ⊢
            obtain ⟨k, stp, e, hk, hlen, hm, hres⟩ := ihr.2 msg hmsg
            refine ⟨k + 1, stp, e, ?_, ?_, ?_, ?_⟩
            · simpa using hk
            · simp only [List.length_append, List.length_cons, List.length_nil] at hlen
              omega
            · have harith : i + 1 + k = i + (k + 1) := by omega
              rw [harith] at hm
              exact hm
            · have harith₂ : acc.length + (k + 1)
                  = (acc ++ [(⟨some v, none, []⟩ : SimpleResult)]).length + k := by
                simp only [List.length_append, List.length_cons, List.length_nil]
                omega
              have hcast : (((i + 1 : Nat) : Int) + (k : Int))
                  = ((i : Int) + ((k + 1 : Nat) : Int)) := by
                push_cast
                ring
              rw [harith₂]
              rw [hcast] at hres
              exact hres

/-- `C7`: the sequential pipeline (which always stops on error — there is
no flag) halts at the first failing step: with no error the result list
covers every step; with an error there is a failing step `k` such that
exactly `k+1` results were collected (one per attempted step, the last
being the error result carrying step/tool metadata), no later step ran,
and the error message names index `k` and the failing tool. -/
theorem pipeline_stops_at_first_failure (steps : List PStep) :
    ((pipelineExecute steps).snd = none →
        (pipelineExecute steps).fst.length = steps.length)
    ∧ (∀ msg, (pipelineExecute steps).snd = some msg →
        ∃ (k : Nat) (step : PStep) (e : String),
          steps[k]? = some step
          ∧ (pipelineExecute steps).fst.length = k + 1
          ∧ msg = "pipeline failed at step " ++ toString k
              ++ " (" ++ step.name ++ "): " ++ e
          ∧ (pipelineExecute steps).fst[k]? =
              some ⟨none, some e,
                [("step", Value.vInt k), ("tool", Value.vStr step.name)]⟩) := by
  have h := pipelineExecuteAux_spec steps 0 []
  refine ⟨fun hnone => ?_, fun msg hmsg => ?_⟩
  · simpa [pipelineExecute] using h.1 hnone
  · obtain ⟨k, step, e, hk, hlen, hm, hres⟩ := h.2 msg hmsg
    exact ⟨k, step, e, hk, by simpa using hlen, by simpa using hm, by simpa using hres⟩

/-- A step that succeeds with payload "A". -/
def stepOkA : PStep := ⟨"alpha", fun _ => Except.ok (Value.vStr "A"), []⟩

/-- A step that always fails. -/
def stepFailB : PStep := ⟨"beta", fun _ => Except.error "boom", []⟩

/-- A step that succeeds with payload "C". -/
def stepOkC : PStep := ⟨"gamma", fun _ => Except.ok (Value.vStr "C"), []⟩

/-- Witness: `C7` on a fully successful pipeline and on a three-step
pipeline failing at index 1 — two results collected, the third step never
attempted, the error naming step 1 and tool "beta". -/
theorem pipeline_stops_at_first_failure_witness :
    (pipelineExecute [stepOkA, stepOkC]).fst.length = 2
    ∧ (∃ (k : Nat) (step : PStep) (e : String),
        ([stepOkA, stepFailB, stepOkC])[k]? = some step
        ∧ (pipelineExecute [stepOkA, stepFailB, stepOkC]).fst.length = k + 1
        ∧ "pipeline failed at step 1 (beta): boom"
            = "pipeline failed at step " ++ toString k
              ++ " (" ++ step.name ++ "): " ++ e
        ∧ (pipelineExecute [stepOkA, stepFailB, stepOkC]).fst[k]? =
            some ⟨none, some e,
              [("step", Value.vInt k), ("tool", Value.vStr step.name)]⟩) := by
  constructor
  · simpa using (pipeline_stops_at_first_failure [stepOkA, stepOkC]).1 (by decide)
  · exact (pipeline_stops_at_first_failure [stepOkA, stepFailB, stepOkC]).2
      "pipeline failed at step 1 (beta): boom" (by decide)

/-- The result slots of `ParallelPipeline.Execute`: worker `idx` writes
only `results[idx]`; the error branch stores a bare error result (no
metadata in the parallel path). -/
def parallelResults (steps : List PStep) : List SimpleResult :=
  steps.map fun s =>
    match s.exec s.params with
    | Except.ok v => ⟨some v, none, []⟩
    | Except.error e => ⟨none, some e, []⟩

/-- The post-join scan over the `errors` slots in index order: the first
non-nil error is wrapped naming the failing step's tool. -/
def firstWorkerError : List PStep → Option String
  | [] => none
  | s :: rest =>
      match s.exec s.params with
      | Except.error e => some ("tool " ++ s.name ++ " failed: " ++ e)
      | Except.ok _ => firstWorkerError rest

/-- `ParallelPipeline.Execute` with a never-cancelled context: all
workers joined, every slot filled, first error aggregated. -/
def parallelExecute (steps : List PStep) : List SimpleResult × Option String :=
  (parallelResults steps, firstWorkerError steps)

/-- `C8`: the parallel pipeline returns exactly one result per step in
slot order — successes stay visible even when other steps fail — and
aggregates exactly one error: the first failing slot's, naming that
step's tool. -/
theorem parallel_joins_all_slots (steps : List PStep) :
    (parallelExecute steps).fst.length = steps.length
    ∧ (∀ (k : Nat) (step : PStep), steps[k]? = some step →
        (parallelExecute steps).fst[k]? =
          some (match step.exec step.params with
            | Except.ok v => ⟨some v, none, []⟩
            | Except.error e => ⟨none, some e, []⟩))
    ∧ ((parallelExecute steps).snd = none ↔
        ∀ step ∈ steps, ∃ v, step.exec step.params = Except.ok v)
    ∧ (∀ (k : Nat) (step : PStep) (e : String), steps[k]? = some step →
        step.exec step.params = Except.error e →
        (∀ j, j < k → ∀ sj, steps[j]? = some sj →
          ∃ v, sj.exec sj.params = Except.ok v) →
        (parallelExecute steps).snd =
          some ("tool " ++ step.name ++ " failed: " ++ e)) := by
  refine ⟨by simp [parallelExecute, parallelResults], ?_, ?_, ?_⟩
  · intro k step hk
    simp [parallelExecute, parallelResults, List.getElem?_map, hk]
  · induction steps with
    | nil => simp [parallelExecute, firstWorkerError]
    | cons s rest ih =>
        cases hex : s.exec s.params with
        | error e => simp [parallelExecute, firstWorkerError, hex]
        | ok v =>
            simp only [parallelExecute, firstWorkerError, hex] at ih ⊢
            rw [ih]
            constructor
            · intro hall step hmem
              rcases List.mem_cons.mp hmem with hh | ht
              · subst hh
                exact ⟨v, hex⟩
              · exact hall step ht
            · intro hall step hmem
              exact hall step (List.mem_cons_of_mem s hmem)
  · induction steps with
    | nil =>
        intro k step e hk
        simp at hk
    | cons s rest ih =>
        intro k step e hk hex hprev
        cases k with
        | zero =>
            rw [List.getElem?_cons_zero] at hk
            obtain rfl : s = step := Option.some_inj.mp hk
            simp [parallelExecute, firstWorkerError, hex]
        | succ j =>
            rw [List.getElem?_cons_succ] at hk
            obtain ⟨v, hv⟩ := hprev 0 (Nat.succ_pos j) s List.getElem?_cons_zero
            simp only [parallelExecute, firstWorkerError, hv]
            have := ih j step e hk hex ?_
            · simpa [parallelExecute] using this
            · intro j₂ hj₂ sj hsj
              exact hprev (j₂ + 1) (Nat.succ_lt_succ hj₂) sj
                (by rw [List.getElem?_cons_succ]; exact hsj)

/-- Witness: `C8` on a three-step pipeline whose middle step fails —
three results, two successes visible, one aggregated error naming
"beta". -/
theorem parallel_joins_all_slots_witness :
    (parallelExecute [stepOkA, stepFailB, stepOkC]).fst.length = 3
    ∧ (parallelExecute [stepOkA, stepFailB, stepOkC]).fst[0]? =
        some ⟨some (Value.vStr "A"), none, []⟩
    ∧ (parallelExecute [stepOkA, stepFailB, stepOkC]).snd =
        some "tool beta failed: boom" := by
  have h := parallel_joins_all_slots [stepOkA, stepFailB, stepOkC]
  refine ⟨by simpa using h.1, ?_, ?_⟩
  · simpa [stepOkA] using h.2.1 0 stepOkA rfl
  · refine h.2.2.2 1 stepFailB "boom" ?_ rfl ?_
    · rw [List.getElem?_cons_succ]
      exact List.getElem?_cons_zero
    · intro j hj sj hsj
      interval_cases j
      rw [List.getElem?_cons_zero] at hsj
      obtain rfl : stepOkA = sj := Option.some_inj.mp hsj
      exact ⟨Value.vStr "A", rfl⟩

end OpencodeNano
